import Mathlib

/-!
Verification of the Cadentis async runtime (Rust) against its
natural-language specification, via a shallow embedding in Lean 4.

The embedding covers:
* the task lifecycle state machine of `src/cadentis/src/runtime/task/core.rs`
  (`Task::run`, `Task::wake`, `Task::abort`) together with the result slot and
  the `JoinHandle::poll` accesses of `src/cadentis/src/runtime/task/handle.rs`;
* `JoinSet::join_next`, `JoinSet::abort_all` and `JoinSet::race_n` of
  `src/cadentis/src/runtime/task/set.rs`;
* the timer-firing phase of the reactor event loop (`src/core.rs`) and the
  reversed `Ord` of `TimerEntry` (`src/cadentis/src/reactor/timer.rs`);
* one iteration of the worker loop of
  `src/cadentis/src/runtime/executor/worker.rs` over the local queues
  (`src/cadentis/src/runtime/work_stealing/queue.rs`) and the global injector
  (`src/cadentis/src/runtime/work_stealing/injector.rs`);
* `Executor::spawn` of `src/cadentis/src/runtime/executor/core.rs`;
* the `Slab` allocator of `src/cadentis/src/utils/slab.rs`.

Machine integers (`usize` state constants) are embedded as `Nat`; the values
produced by futures are represented by `Nat` tokens; `Arc<dyn Runnable>`
references are represented by counting queued references.  Concurrency is
embedded as a small-step relation whose atomic steps are exactly the atomic
accesses of the Rust code (each `load`/`compare_exchange`/`store` sequence
that the code performs without interruption by other threads is one step,
and the code of `Task::run` is split at the `poll` call into a start step
and an epilogue step, since arbitrary interleavings happen across the poll).
-/

namespace Cadentis

/-! ### Task lifecycle states, from `src/cadentis/src/runtime/task/state.rs` -/

/-- `IDLE`: task exists but is not queued or running. -/
def IDLE : Nat := 0

/-- `QUEUED`: task is scheduled and waiting in a run queue. -/
def QUEUED : Nat := 1

/-- `RUNNING`: task is currently being executed by a worker. -/
def RUNNING : Nat := 2

/-- `COMPLETED`: the future returned `Poll::Ready`. -/
def COMPLETED : Nat := 3

/-- `NOTIFIED`: the task was woken while already executing. -/
def NOTIFIED : Nat := 4

/-- `CANCELLED`: the task was aborted before completion. -/
def CANCELLED : Nat := 5

/-! ### Shared-memory configuration of one task

`injector` counts the `Arc` references to this task currently sitting in the
global injector queue (`Injector::push` increments it, a worker popping the
reference to call `Task::run` consumes one).  `waiters` counts the wakers in
the `waiters: Mutex<Vec<Waker>>` list.  `polling` records that some worker is
inside `Task::run` between its successful CAS into `RUNNING` and its
post-poll epilogue (the `RUNNING` state grants that worker exclusivity, so at
most one worker can be in this section).  `taken` is a ghost flag recording
that a `JoinHandle::poll` has consumed the result with `take()`. -/
structure TaskCfg where
  state : Nat
  result : Option Nat
  injector : Nat
  waiters : Nat
  polling : Bool
  taken : Bool
deriving Repr, DecidableEq

/-- `Task::wake` (`core.rs` lines 132-161), as a function of the observed
state: from `IDLE`, CAS to `QUEUED` and push one reference into the
injector; from `RUNNING`, CAS to `NOTIFIED`; from `QUEUED`, `NOTIFIED`,
`COMPLETED`, `CANCELLED` (and any other value), return with no effect.
The retry loop of the Rust code only reruns this same match after a failed
CAS, so one atomic step performs the successful iteration. -/
def wakeStep (c : TaskCfg) : TaskCfg :=
  if c.state = IDLE then
    { c with state := QUEUED, injector := c.injector + 1 }
  else if c.state = RUNNING then
    { c with state := NOTIFIED }
  else
    c

/-- `Task::abort` (`core.rs` lines 167-189): return if the observed state is
`COMPLETED` or `CANCELLED`, otherwise CAS the observed state to `CANCELLED`
(and wake the waiters, which changes no field of the configuration). -/
def abortStep (c : TaskCfg) : TaskCfg :=
  if c.state = COMPLETED ∨ c.state = CANCELLED then c
  else { c with state := CANCELLED }

/-- The entry of `Task::run` (`core.rs` lines 75-93): a worker consumes one
queued reference, loads the state, returns early unless it is `QUEUED` or
`NOTIFIED`, and otherwise CASes it to `RUNNING`, after which it owns the
future and proceeds to poll it (`polling := true`).  The step is a no-op
when no queued reference exists or another worker already holds the
`RUNNING` exclusivity. -/
def runStartStep (c : TaskCfg) : TaskCfg :=
  if c.polling then c
  else if c.injector = 0 then c
  else if c.state = CANCELLED ∨ (c.state ≠ QUEUED ∧ c.state ≠ NOTIFIED) then
    { c with injector := c.injector - 1 }
  else
    { c with state := RUNNING, polling := true, injector := c.injector - 1 }

/-- The `Poll::Pending` epilogue of `Task::run` (`core.rs` lines 98-110):
CAS `RUNNING -> IDLE`; when the CAS fails (the state changed while the
future was being polled) store `QUEUED` unconditionally and push the task
back into the injector. -/
def runEndPendingStep (c : TaskCfg) : TaskCfg :=
  if c.polling then
    if c.state = RUNNING then
      { c with state := IDLE, polling := false }
    else
      { c with state := QUEUED, injector := c.injector + 1, polling := false }
  else
    c

/-- The `Poll::Ready(val)` epilogue of `Task::run` (`core.rs` lines 111-123):
store the result, store `COMPLETED` unconditionally, and wake all waiters. -/
def runEndReadyStep (v : Nat) (c : TaskCfg) : TaskCfg :=
  if c.polling then
    { c with result := some v, state := COMPLETED, polling := false }
  else
    c

/-- The waker-registration write of `JoinHandle::poll` (`handle.rs` line 63):
on the path where the first state load was neither `COMPLETED` nor
`CANCELLED`, the poll pushes the caller's waker onto the waiter list. -/
def pollRegisterStep (c : TaskCfg) : TaskCfg :=
  if c.state = COMPLETED ∨ c.state = CANCELLED then c
  else { c with waiters := c.waiters + 1 }

/-- The result-consuming write of `JoinHandle::poll` (`handle.rs` lines
47-53 and 69-75): a state load observed `COMPLETED` and the poll `take()`s
the stored value out of the result slot. -/
def pollTakeStep (c : TaskCfg) : TaskCfg :=
  if c.state = COMPLETED ∧ c.result.isSome then
    { c with result := none, taken := true }
  else
    c

/-- One atomic step of any thread interacting with the task. -/
inductive TaskStep : TaskCfg → TaskCfg → Prop
  | wake (c : TaskCfg) : TaskStep c (wakeStep c)
  | abortT (c : TaskCfg) : TaskStep c (abortStep c)
  | runStart (c : TaskCfg) : TaskStep c (runStartStep c)
  | runEndPending (c : TaskCfg) : TaskStep c (runEndPendingStep c)
  | runEndReady (v : Nat) (c : TaskCfg) : TaskStep c (runEndReadyStep v c)
  | pollRegister (c : TaskCfg) : TaskStep c (pollRegisterStep c)
  | pollTake (c : TaskCfg) : TaskStep c (pollTakeStep c)

/-- Reachability under any interleaving of task operations. -/
inductive TaskReach : TaskCfg → TaskCfg → Prop
  | refl (c : TaskCfg) : TaskReach c c
  | tail {a b c : TaskCfg} : TaskReach a b → TaskStep b c → TaskReach a c

/-- The configuration produced by `spawn` (`core.rs` lines 198-241):
`Task::new` initialises the state to `QUEUED` with an empty result slot and
no waiters, and the new reference is pushed into a queue. -/
def initTask : TaskCfg :=
  { state := QUEUED, result := none, injector := 1, waiters := 0,
    polling := false, taken := false }

/-! ### Invariant of the task machine -/

/-- Inductive invariant of the task configuration: the `RUNNING` exclusivity
section only ever observes the states `RUNNING`, `NOTIFIED` or `CANCELLED`;
the result is only consumed while `COMPLETED`; a stored result implies
`COMPLETED`; and a `COMPLETED` task whose result has not been consumed holds
a stored result. -/
def TaskInv (c : TaskCfg) : Prop :=
  (c.polling = true →
    c.state = RUNNING ∨ c.state = NOTIFIED ∨ c.state = CANCELLED) ∧
  (c.taken = true → c.state = COMPLETED) ∧
  (c.result.isSome = true → c.state = COMPLETED) ∧
  (c.state = COMPLETED → c.taken = false → c.result.isSome = true)

instance (c : TaskCfg) : Decidable (TaskInv c) := by
  unfold TaskInv; infer_instance

theorem taskInv_step {a b : TaskCfg} (h : TaskInv a) (s : TaskStep a b) :
    TaskInv b := by
  obtain ⟨hp, ht, hr, hc⟩ := h
  cases s with
  | wake c =>
    unfold wakeStep
    split_ifs with h1 h2 <;>
      refine ⟨fun hx => ?_, fun hx => ?_, fun hx => ?_, fun hx hy => ?_⟩ <;>
      simp_all [IDLE, QUEUED, RUNNING, COMPLETED, NOTIFIED, CANCELLED]
  | abortT c =>
    unfold abortStep
    split_ifs with h1 <;>
      refine ⟨fun hx => ?_, fun hx => ?_, fun hx => ?_, fun hx hy => ?_⟩ <;>
      simp_all [IDLE, QUEUED, RUNNING, COMPLETED, NOTIFIED, CANCELLED]
  | runStart c =>
    unfold runStartStep
    split_ifs with h1 h2 h3 <;>
      refine ⟨fun hx => ?_, fun hx => ?_, fun hx => ?_, fun hx hy => ?_⟩ <;>
      simp_all [IDLE, QUEUED, RUNNING, COMPLETED, NOTIFIED, CANCELLED]
  | runEndPending c =>
    unfold runEndPendingStep
    split_ifs with h1 h2 <;>
      refine ⟨fun hx => ?_, fun hx => ?_, fun hx => ?_, fun hx hy => ?_⟩ <;>
      simp_all [IDLE, QUEUED, RUNNING, COMPLETED, NOTIFIED, CANCELLED]
  | runEndReady v c =>
    unfold runEndReadyStep
    split_ifs with h1 <;>
      refine ⟨fun hx => ?_, fun hx => ?_, fun hx => ?_, fun hx hy => ?_⟩ <;>
      simp_all [IDLE, QUEUED, RUNNING, COMPLETED, NOTIFIED, CANCELLED]
  | pollRegister c =>
    unfold pollRegisterStep
    split_ifs with h1 <;>
      refine ⟨fun hx => ?_, fun hx => ?_, fun hx => ?_, fun hx hy => ?_⟩ <;>
      simp_all [IDLE, QUEUED, RUNNING, COMPLETED, NOTIFIED, CANCELLED]
  | pollTake c =>
    unfold pollTakeStep
    split_ifs with h1 <;>
      refine ⟨fun hx => ?_, fun hx => ?_, fun hx => ?_, fun hx hy => ?_⟩ <;>
      simp_all [IDLE, QUEUED, RUNNING, COMPLETED, NOTIFIED, CANCELLED]

theorem taskInv_reach {a b : TaskCfg} (h : TaskInv a) (r : TaskReach a b) :
    TaskInv b := by
  induction r with
  | refl => exact h
  | tail _ s ih => exact taskInv_step ih s

/-! ### C1: terminal states -/

/-- The reachable configuration used for C1: a worker is inside
`Task::run`'s poll when `Task::abort` lands, so the state is `CANCELLED`
while the worker still owns the epilogue. -/
def cancelledMidPollCfg : TaskCfg :=
  { state := CANCELLED, result := none, injector := 0, waiters := 0,
    polling := true, taken := false }

/-- ### C1
For every task and interleaving, once the state is `COMPLETED` or
`CANCELLED` it never changes again.  FALSIFIED by the code: from a freshly
spawned task, a worker starts running it (`QUEUED -> RUNNING`), `abort`
then CASes `RUNNING -> CANCELLED`, and the `Poll::Pending` epilogue of
`Task::run`, whose `RUNNING -> IDLE` CAS fails, force-stores `QUEUED` and
re-enqueues the task — transitioning out of the terminal `CANCELLED`
state. -/
theorem run_pending_epilogue_escapes_cancelled :
    TaskReach initTask cancelledMidPollCfg ∧
    cancelledMidPollCfg.state = CANCELLED ∧
    TaskStep cancelledMidPollCfg
      { state := QUEUED, result := none, injector := 1, waiters := 0,
        polling := false, taken := false } ∧
    QUEUED ≠ CANCELLED := by
  refine ⟨?_, by decide, ?_, by decide⟩
  · have h1 : runStartStep initTask =
        { state := RUNNING, result := none, injector := 0, waiters := 0,
          polling := true, taken := false } := by decide
    have h2 : abortStep
        { state := RUNNING, result := none, injector := 0, waiters := 0,
          polling := true, taken := false } = cancelledMidPollCfg := by decide
    exact TaskReach.tail
      (TaskReach.tail (TaskReach.refl _) (h1 ▸ TaskStep.runStart _))
      (h2 ▸ TaskStep.abortT _)
  · have h3 : runEndPendingStep cancelledMidPollCfg =
        { state := QUEUED, result := none, injector := 1, waiters := 0,
          polling := false, taken := false } := by decide
    exact h3 ▸ TaskStep.runEndPending _

/-! ### C2: the result slot versus `COMPLETED` -/

/-- Reachable configuration for C2: the task completed and a
`JoinHandle::poll` then consumed the result. -/
def takenCfg : TaskCfg :=
  { state := COMPLETED, result := none, injector := 0, waiters := 0,
    polling := false, taken := true }

/-- ### C2 counterexample
The claim "the result slot holds `Some` iff the state is `COMPLETED`" fails
at the reachable configuration in which a `JoinHandle::poll` has taken the
result: the state is still `COMPLETED` but the slot is `None`. -/
theorem result_slot_iff_completed_counterexample :
    TaskReach initTask takenCfg ∧
    ¬(takenCfg.result.isSome = true ↔ takenCfg.state = COMPLETED) := by
  refine ⟨?_, by decide⟩
  have h1 : runStartStep initTask =
      { state := RUNNING, result := none, injector := 0, waiters := 0,
        polling := true, taken := false } := by decide
  have h2 : runEndReadyStep 0
      { state := RUNNING, result := none, injector := 0, waiters := 0,
        polling := true, taken := false } =
      { state := COMPLETED, result := some 0, injector := 0, waiters := 0,
        polling := false, taken := false } := by decide
  have h3 : pollTakeStep
      { state := COMPLETED, result := some 0, injector := 0, waiters := 0,
        polling := false, taken := false } = takenCfg := by decide
  exact TaskReach.tail
    (TaskReach.tail
      (TaskReach.tail (TaskReach.refl _) (h1 ▸ TaskStep.runStart _))
      (h2 ▸ TaskStep.runEndReady 0 _))
    (h3 ▸ TaskStep.pollTake _)

/-- ### C2 (amended)
In every reachable task configuration, a `Some` result slot implies the
state is `COMPLETED`, and a `COMPLETED` state implies the slot is `Some`
unless a `JoinHandle::poll` has already consumed the result. -/
theorem result_slot_some_iff_completed_until_taken (c : TaskCfg)
    (h : TaskReach initTask c) :
    (c.result.isSome = true → c.state = COMPLETED) ∧
    (c.state = COMPLETED → c.taken = false → c.result.isSome = true) := by
  have hInv : TaskInv c := taskInv_reach (by decide) h
  exact ⟨hInv.2.2.1, hInv.2.2.2⟩

/-- Witness for the amended C2, at the initial configuration. -/
theorem result_slot_some_iff_completed_until_taken_witness :
    (initTask.result.isSome = true → initTask.state = COMPLETED) ∧
    (initTask.state = COMPLETED → initTask.taken = false →
      initTask.result.isSome = true) :=
  result_slot_some_iff_completed_until_taken initTask (TaskReach.refl _)

/-! ### C3: `Task::wake` -/

/-- ### C3
`Task::wake` from `IDLE` transitions to `QUEUED` and pushes exactly one
reference into the injector; from `RUNNING` it transitions to `NOTIFIED`
and enqueues nothing; from `QUEUED`, `NOTIFIED`, `COMPLETED` or `CANCELLED`
it leaves the task state and the injector unchanged. -/
theorem wake_transitions (c : TaskCfg) :
    (c.state = IDLE →
      wakeStep c = { c with state := QUEUED, injector := c.injector + 1 }) ∧
    (c.state = RUNNING → wakeStep c = { c with state := NOTIFIED }) ∧
    (c.state = QUEUED ∨ c.state = NOTIFIED ∨ c.state = COMPLETED ∨
        c.state = CANCELLED →
      wakeStep c = c) := by
  refine ⟨fun h => ?_, fun h => ?_, fun h => ?_⟩
  · simp [wakeStep, h]
  · simp [wakeStep, h, RUNNING, IDLE]
  · rcases h with h | h | h | h <;>
      simp [wakeStep, h, IDLE, QUEUED, RUNNING, COMPLETED, NOTIFIED, CANCELLED]

/-- Witness for C3 at a concrete `IDLE` configuration. -/
theorem wake_transitions_witness :
    wakeStep
      { state := IDLE, result := none, injector := 0, waiters := 0,
        polling := false, taken := false } =
    { state := QUEUED, result := none, injector := 1, waiters := 0,
      polling := false, taken := false } := by
  have h := (wake_transitions
    { state := IDLE, result := none, injector := 0, waiters := 0,
      polling := false, taken := false }).1 rfl
  simpa using h

/-! ### C5: `JoinHandle::poll` (`src/cadentis/src/runtime/task/handle.rs`) -/

/-- Outcome of one `JoinHandle::poll` call. -/
inductive PollOutcome
  | ready (v : Nat)
  | panicConsumed
  | panicCancelled
  | pending
deriving Repr, DecidableEq

/-- State of the handle after one `JoinHandle::poll` call: its outcome, the
result slot, and the waiter-list length. -/
structure PollResult where
  outcome : PollOutcome
  result : Option Nat
  waiters : Nat
deriving Repr, DecidableEq

/-- `JoinHandle::poll` (`handle.rs` lines 42-82).  `s1` is the state read by
the phase-1 load and `s2` the state read by the phase-3 re-load (they can
differ when the task completes concurrently); `result` is the content of the
result slot at the point it is read.  Phase 1: on `COMPLETED` take the
result (`expect` panics when it was already consumed); on `CANCELLED`
panic.  Phase 2: push the caller's waker.  Phase 3: re-check the state the
same way, and return `Pending` when it is still non-terminal. -/
def joinHandlePoll (s1 s2 : Nat) (result : Option Nat) (waiters : Nat) :
    PollResult :=
  if s1 = COMPLETED then
    match result with
    | some v => ⟨.ready v, none, waiters⟩
    | none => ⟨.panicConsumed, none, waiters⟩
  else if s1 = CANCELLED then ⟨.panicCancelled, result, waiters⟩
  else
    if s2 = COMPLETED then
      match result with
      | some v => ⟨.ready v, none, waiters + 1⟩
      | none => ⟨.panicConsumed, none, waiters + 1⟩
    else if s2 = CANCELLED then ⟨.panicCancelled, result, waiters + 1⟩
    else ⟨.pending, result, waiters + 1⟩

/-- ### C5
Every `JoinHandle::poll` first loads the state: on `COMPLETED` it takes and
returns the result (panicking when it was already consumed); on `CANCELLED`
it panics; otherwise it pushes the caller's waker onto the waiter list and
re-reads the state, returning the result (or panicking on `CANCELLED`) when
the second read is terminal and `Pending` when it is still non-terminal. -/
theorem join_handle_poll_spec (s1 s2 : Nat) (result : Option Nat)
    (waiters : Nat) :
    (s1 = COMPLETED → ∀ v, result = some v →
      joinHandlePoll s1 s2 result waiters = ⟨.ready v, none, waiters⟩) ∧
    (s1 = COMPLETED → result = none →
      joinHandlePoll s1 s2 result waiters = ⟨.panicConsumed, none, waiters⟩) ∧
    (s1 = CANCELLED →
      joinHandlePoll s1 s2 result waiters =
        ⟨.panicCancelled, result, waiters⟩) ∧
    (s1 ≠ COMPLETED → s1 ≠ CANCELLED →
      (joinHandlePoll s1 s2 result waiters).waiters = waiters + 1 ∧
      (s2 = COMPLETED → ∀ v, result = some v →
        joinHandlePoll s1 s2 result waiters = ⟨.ready v, none, waiters + 1⟩) ∧
      (s2 = COMPLETED → result = none →
        joinHandlePoll s1 s2 result waiters =
          ⟨.panicConsumed, none, waiters + 1⟩) ∧
      (s2 = CANCELLED →
        joinHandlePoll s1 s2 result waiters =
          ⟨.panicCancelled, result, waiters + 1⟩) ∧
      (s2 ≠ COMPLETED → s2 ≠ CANCELLED →
        joinHandlePoll s1 s2 result waiters =
          ⟨.pending, result, waiters + 1⟩)) := by
  rcases result with _ | w <;>
    refine ⟨fun h1 v hv => ?_, fun h1 hv => ?_, fun h1 => ?_,
      fun h1 h2 => ⟨?_, fun h3 v hv => ?_, fun h3 hv => ?_, fun h3 => ?_,
        fun h3 h4 => ?_⟩⟩ <;>
    unfold joinHandlePoll <;>
    split_ifs <;>
    simp_all [COMPLETED, CANCELLED]

/-- Witness for C5: a poll that observes a non-terminal first state and a
`COMPLETED` second state takes the stored value after registering its
waker. -/
theorem join_handle_poll_spec_witness :
    joinHandlePoll RUNNING COMPLETED (some 7) 0 = ⟨.ready 7, none, 1⟩ := by
  have h := ((join_handle_poll_spec RUNNING COMPLETED (some 7) 0).2.2.2
    (by decide) (by decide)).2.1 rfl 7 rfl
  exact h

/-! ### C6: reactor timer firing (`src/core.rs` lines 144-163 and
`src/cadentis/src/reactor/timer.rs`) -/

/-- An entry of the reactor timer heap.  `Instant` is embedded as a `Nat`
tick count, the `Arc<AtomicBool>` cancel flag as the `Bool` it holds during
the firing phase, and the `Waker` by a `Nat` identifier. -/
structure TimerEntry where
  deadline : Nat
  cancelled : Bool
  waker : Nat
deriving Repr, DecidableEq

/-- `TimerEntry::cmp` (`timer.rs` lines 34-43): the comparison is reversed,
`other.deadline.cmp(&self.deadline)`. -/
def timerCmp (a b : TimerEntry) : Ordering :=
  compare b.deadline a.deadline

/-- The timer-firing phase of `Reactor::run` (`core.rs` lines 148-163):
while the heap has a minimum-deadline entry whose deadline is not after
`now`, pop it, skip it when its cancel flag is set, and otherwise invoke
its waker.  The `BinaryHeap` with the reversed `Ord` pops entries in
ascending deadline order, so the heap is embedded as the list of its
entries sorted by ascending deadline.  Returns the invoked waker ids in
order, and the remaining heap contents. -/
def fireTimers (now : Nat) : List TimerEntry → List Nat × List TimerEntry
  | [] => ([], [])
  | t :: rest =>
    if now < t.deadline then ([], t :: rest)
    else
      (if t.cancelled then (fireTimers now rest).1
       else t.waker :: (fireTimers now rest).1,
       (fireTimers now rest).2)

/-- The wakers invoked by the firing phase are exactly those of the
non-cancelled entries whose deadline has passed, in heap (ascending
deadline) order. -/
theorem fireTimers_fired (now : Nat) (heap : List TimerEntry)
    (hsorted : heap.Pairwise (fun a b => a.deadline ≤ b.deadline)) :
    (fireTimers now heap).1 =
      (heap.filter (fun t => t.deadline ≤ now ∧ t.cancelled = false)).map
        (fun t => t.waker) := by
  induction heap with
  | nil => simp [fireTimers]
  | cons t rest ih =>
    rcases List.pairwise_cons.mp hsorted with ⟨hle, hrest⟩
    by_cases hnow : now < t.deadline
    · have hnil : (t :: rest).filter
          (fun u => u.deadline ≤ now ∧ u.cancelled = false) = [] := by
        rw [List.filter_eq_nil_iff]
        intro u hu
        rcases List.mem_cons.mp hu with h | h
        · subst h
          simp only [decide_eq_true_eq]
          rintro ⟨hc1, hc2⟩
          omega
        · have := hle u h
          simp only [decide_eq_true_eq]
          rintro ⟨hc1, hc2⟩
          omega
      simp only [fireTimers, if_pos hnow]
      rw [hnil]
      simp
    · have hle2 : t.deadline ≤ now := Nat.le_of_not_lt hnow
      by_cases hcanc : t.cancelled
      · simp only [fireTimers, if_neg hnow]
        simp [hcanc, ih hrest, hle2]
      · simp only [fireTimers, if_neg hnow]
        simp [hcanc, ih hrest, hle2]

/-- The entries left in the heap by the firing phase are exactly those
whose deadline is still in the future. -/
theorem fireTimers_remaining (now : Nat) (heap : List TimerEntry)
    (hsorted : heap.Pairwise (fun a b => a.deadline ≤ b.deadline)) :
    (fireTimers now heap).2 = heap.filter (fun t => now < t.deadline) := by
  induction heap with
  | nil => simp [fireTimers]
  | cons t rest ih =>
    rcases List.pairwise_cons.mp hsorted with ⟨hle, hrest⟩
    by_cases hnow : now < t.deadline
    · have hall : (t :: rest).filter (fun u => now < u.deadline) =
          t :: rest := by
        rw [List.filter_eq_self]
        intro u hu
        rcases List.mem_cons.mp hu with h | h
        · subst h; simpa using hnow
        · have := hle u h
          simp
          omega
      simp only [fireTimers, if_pos hnow]
      rw [hall]
    · have hle2 : t.deadline ≤ now := Nat.le_of_not_lt hnow
      simp only [fireTimers, if_neg hnow]
      simp [ih hrest, hnow]

/-- ### C6
After the poll call, every timer entry whose deadline is at most the current
instant is popped in ascending-deadline order (the reversed `Ord` on
`TimerEntry` makes the `BinaryHeap` a min-heap); a popped entry whose
cancel flag is set is skipped without invoking its waker, every other
popped entry has its waker invoked, and entries whose deadline is still in
the future remain in the heap. -/
theorem fire_timers_spec (now : Nat) (heap : List TimerEntry)
    (hsorted : heap.Pairwise (fun a b => a.deadline ≤ b.deadline)) :
    (fireTimers now heap).1 =
      (heap.filter (fun t => t.deadline ≤ now ∧ t.cancelled = false)).map
        (fun t => t.waker) ∧
    (fireTimers now heap).2 = heap.filter (fun t => now < t.deadline) ∧
    (∀ a b : TimerEntry,
      timerCmp a b = Ordering.lt ↔ b.deadline < a.deadline) :=
  ⟨fireTimers_fired now heap hsorted, fireTimers_remaining now heap hsorted,
    fun _ _ => Nat.compare_eq_lt⟩

/-- Witness for C6 on a concrete sorted heap: deadlines 1 (live), 2
(cancelled) and 5 with `now = 3` fire only waker 10 and keep the deadline-5
entry. -/
theorem fire_timers_spec_witness :
    (fireTimers 3 [⟨1, false, 10⟩, ⟨2, true, 20⟩, ⟨5, false, 30⟩]).1 =
      [10] ∧
    (fireTimers 3 [⟨1, false, 10⟩, ⟨2, true, 20⟩, ⟨5, false, 30⟩]).2 =
      [⟨5, false, 30⟩] := by
  have h := fire_timers_spec 3 [⟨1, false, 10⟩, ⟨2, true, 20⟩, ⟨5, false, 30⟩]
    (by decide)
  exact ⟨by rw [h.1]; decide, by rw [h.2.1]; decide⟩

/-! ### C9: `Executor::spawn` (`src/cadentis/src/runtime/executor/core.rs`
lines 94-104) -/

/-- `Executor::spawn`: load the shutdown flag and return immediately when it
is set; otherwise construct the task and push it into the injector queue.
Tasks are identified by `Nat` tokens; the first component reports the task
constructed by the call (`none` when none was). -/
def executorSpawn (shutdown : Bool) (injector : List Nat) (fut : Nat) :
    Option Nat × List Nat :=
  if shutdown then (none, injector)
  else (some fut, injector ++ [fut])

/-- ### C9
After the shutdown flag is set, every `Executor::spawn` call returns without
constructing a task and leaves the injector queue unchanged; the return type
is `()` in the Rust code, so no error is reported to the caller. -/
theorem spawn_after_shutdown_ignored (injector : List Nat) (fut : Nat) :
    executorSpawn true injector fut = (none, injector) := by
  simp [executorSpawn]

/-! ### C7: `JoinSet::join_next` (`src/cadentis/src/runtime/task/set.rs`
lines 72-96) -/

/-- `Vec::swap_remove(i)`: replace the element at `i` with the last element
and pop the last element.  Removal is O(1) and element order is not
preserved. -/
def swapRemove (l : List α) (i : Nat) : List α :=
  match l.getLast? with
  | none => l
  | some x => (l.set i x).dropLast

theorem swapRemove_cons (a : α) (l : List α) (i : Nat) (h : l ≠ []) :
    swapRemove (a :: l) (i + 1) = a :: swapRemove l i := by
  unfold swapRemove
  rcases l with _ | ⟨b, bs⟩
  · exact absurd rfl h
  · rw [show (a :: b :: bs).getLast? = (b :: bs).getLast? from rfl,
      List.getLast?_eq_getLast (b :: bs) (by simp)]
    simp only [List.set_cons_succ]
    rw [List.dropLast_cons_of_ne_nil (by simp [List.set])]

theorem swapRemove_length (l : List α) (i : Nat) (h : i < l.length) :
    (swapRemove l i).length + 1 = l.length := by
  unfold swapRemove
  rcases hl : l.getLast? with _ | x
  · rw [List.getLast?_eq_none_iff.mp hl] at h
    simp at h
  · have hne : l ≠ [] := by
      intro he
      subst he
      simp at hl
    have : 1 ≤ l.length := List.length_pos.mpr hne
    simp [List.length_dropLast, List.length_set]
    omega

theorem swapRemove_perm_eraseIdx (l : List α) :
    ∀ i, i < l.length → List.Perm (swapRemove l i) (l.eraseIdx i) := by
  induction l with
  | nil => intro i h; simp at h
  | cons a as ih =>
    intro i h
    rcases as with _ | ⟨b, bs⟩
    · have : i = 0 := by simpa using h
      subst this
      simp [swapRemove, List.set]
    · rcases i with _ | i
      · have hne : (b :: bs) ≠ [] := by simp
        unfold swapRemove
        rw [show (a :: b :: bs).getLast? = (b :: bs).getLast? from rfl,
          List.getLast?_eq_getLast (b :: bs) hne]
        simp only [List.set]
        rw [List.dropLast_cons_of_ne_nil hne, List.eraseIdx_cons_zero]
        refine List.Perm.trans (List.perm_append_singleton _ _).symm ?_
        rw [List.dropLast_append_getLast hne]
      · rw [swapRemove_cons a (b :: bs) i (by simp), List.eraseIdx_cons_succ]
        exact List.Perm.cons a (ih i (by simpa using Nat.lt_of_succ_lt_succ h))

/-- The scan of the `poll_fn` loop in `JoinSet::join_next`: starting at
index 0, poll each stored handle in order and stop at the first that
reports `Ready`.  `p h = true` embeds "`poll_completed` on handle `h`
returns `Ready`" during this pass. -/
def firstReady (p : α → Bool) : List α → Option Nat
  | [] => none
  | a :: as => if p a then some 0 else (firstReady p as).map (· + 1)

theorem firstReady_spec (p : α → Bool) :
    ∀ (hs : List α) (i : Nat), firstReady p hs = some i →
      (∃ a, hs[i]? = some a ∧ p a = true) ∧
      (∀ j, j < i → ∀ b, hs[j]? = some b → p b = false) := by
  intro hs
  induction hs with
  | nil => intro i h; simp [firstReady] at h
  | cons a as ih =>
    intro i h
    by_cases hp : p a
    · simp [firstReady, hp] at h
      subst h
      exact ⟨⟨a, by simp, hp⟩, fun j hj => by omega⟩
    · simp [firstReady, hp] at h
      rcases h with ⟨i2, h2, rfl⟩
      rcases ih i2 h2 with ⟨⟨x, hx, hpx⟩, hbefore⟩
      refine ⟨⟨x, by simpa using hx, hpx⟩, fun j hj b hb => ?_⟩
      rcases j with _ | j
      · simp at hb
        subst hb
        simpa using hp
      · exact hbefore j (by omega) b (by simpa using hb)

/-- Result of one `join_next` call at the completion level. -/
inductive JoinNextOutcome (α : Type)
  | noneEmpty : JoinNextOutcome α
  | readyRemoved (rest : List α) : JoinNextOutcome α
  | pending : JoinNextOutcome α
deriving Repr, DecidableEq

/-- `JoinSet::join_next` (`set.rs` lines 72-96): return `None` immediately
when the set is empty; otherwise poll the stored handles in index order and
at the first `Ready` remove that handle with `swap_remove` and return
`Some(())`; return `Pending` when no handle is ready. -/
def joinNext (p : α → Bool) (hs : List α) : JoinNextOutcome α :=
  if hs.isEmpty then .noneEmpty
  else
    match firstReady p hs with
    | some i => .readyRemoved (swapRemove hs i)
    | none => .pending

/-- ### C7
`join_next` returns `None` immediately on an empty set; otherwise it polls
the handles in index order from 0 and, at the first handle that reports
`Ready`, removes it by unordered swap-removal (the length decreases by one
and the removed multiset element is exactly that handle) and returns
`Some(())`; when no handle is `Ready` it returns `Pending`. -/
theorem join_next_spec (p : α → Bool) (hs : List α) :
    joinNext p ([] : List α) = JoinNextOutcome.noneEmpty ∧
    (∀ i, firstReady p hs = some i →
      (∃ a, hs[i]? = some a ∧ p a = true) ∧
      (∀ j, j < i → ∀ b, hs[j]? = some b → p b = false) ∧
      joinNext p hs = JoinNextOutcome.readyRemoved (swapRemove hs i) ∧
      (swapRemove hs i).length + 1 = hs.length ∧
      List.Perm (swapRemove hs i) (hs.eraseIdx i)) ∧
    (hs ≠ [] → firstReady p hs = none →
      joinNext p hs = JoinNextOutcome.pending) := by
  refine ⟨by simp [joinNext], fun i h => ?_, fun hne h => ?_⟩
  · rcases firstReady_spec p hs i h with ⟨⟨a, ha, hpa⟩, hbefore⟩
    have hlen : i < hs.length := by
      by_contra hge
      rw [List.getElem?_eq_none_iff.mpr (Nat.le_of_not_lt hge)] at ha
      exact absurd ha (by simp)
    have hne : hs ≠ [] := by
      intro he
      subst he
      simp at hlen
    refine ⟨⟨a, ha, hpa⟩, hbefore, ?_, swapRemove_length hs i hlen,
      swapRemove_perm_eraseIdx hs i hlen⟩
    simp [joinNext, hne, h]
  · simp [joinNext, hne, h]

/-- Witness for C7: in a set of two handles of which only the second is
ready, `join_next` removes the second by swap-removal. -/
theorem join_next_spec_witness :
    joinNext (fun b : Bool => b) [false, true] =
      JoinNextOutcome.readyRemoved [false] := by
  have h := ((join_next_spec (fun b : Bool => b) [false, true]).2.1 1
    (by decide)).2.2.1
  rw [show swapRemove [false, true] 1 = [false] by decide] at h
  exact h

/-! ### C4: `JoinSet::race_n` (`src/cadentis/src/runtime/task/set.rs`
lines 103-135) -/

/-- `JoinSet::abort_all` (`set.rs` lines 103-108): call `abort` on every
stored handle, then clear the collection.  Returns the cleared set and the
list of handles on which `abort` was called. -/
def abortAll (hs : List Nat) : List Nat × List Nat :=
  (([] : List Nat), hs)

/-- One awaited `join_next` at the completion level: `None` when the set is
empty, otherwise the scheduler decides which handle completes first
(`pick`, reduced modulo the current length) and that handle is removed by
`swap_remove`. -/
def joinNextPick (hs : List Nat) (pick : Nat) : Option (List Nat) :=
  match hs with
  | [] => none
  | _ :: _ => some (swapRemove hs (pick % hs.length))

/-- The `for _ in 0..n` loop of `race_n` followed by the final `abort_all`:
await `join_next` `n` times; when it returns `None`, `abort_all` and return
`Err`; after `n` successful awaits, `abort_all` and return `Ok`.  `sched`
is the scheduler's choice of completing handle at each await.  The result
is `(ok, set contents afterwards, handles on which abort was called)`. -/
def raceNLoop : Nat → List Nat → List Nat → Bool × List Nat × List Nat
  | 0, _, hs => (true, (abortAll hs).1, (abortAll hs).2)
  | k + 1, sched, hs =>
    match joinNextPick hs (sched.headD 0) with
    | none => (false, (abortAll hs).1, (abortAll hs).2)
    | some hs2 => raceNLoop k sched.tail hs2

/-- `JoinSet::race_n` (`set.rs` lines 121-135): the guard
`if n > self.handles.len() { return Err(()); }` returns `Err` immediately,
without aborting or clearing anything; otherwise run the await loop. -/
def raceN (n : Nat) (sched : List Nat) (hs : List Nat) :
    Bool × List Nat × List Nat :=
  if hs.length < n then (false, hs, ([] : List Nat))
  else raceNLoop n sched hs

/-- ### C4
The claim states that whenever `race_n` returns `Err`, `abort` has been
called on every handle still in the set and the set has been cleared.  The
guard path falsifies it: `race_n(2)` on a set holding one handle returns
`Err(())` while the handle stays in the set and `abort` is called on
nothing — contradicting the code's own documentation ("Even if an error is
returned, all remaining tasks are aborted"). -/
theorem race_n_guard_err_without_abort :
    raceN 2 [] [9] = (false, [9], []) ∧ ([9] : List Nat) ≠ [] := by
  exact ⟨by decide, by decide⟩

/-! ### C8: the worker loop (`src/cadentis/src/runtime/executor/worker.rs`
lines 66-118) -/

/-- `LocalQueue::pop` (`queue.rs` lines 41-43): pop from the back. -/
def popBack (l : List α) : Option (α × List α) :=
  match l.getLast? with
  | none => none
  | some x => some (x, l.dropLast)

/-- `Injector::steal` and `LocalQueue::steal`: pop from the front. -/
def popFront (l : List α) : Option (α × List α) :=
  match l with
  | [] => none
  | a :: as => some (a, as)

/-- State seen by one worker-loop iteration: the shutdown flag, the local
queues of all workers, and the global injector queue.  Tasks are `Nat`
tokens; queues are lists whose head is the front. -/
structure WorkerState where
  shutdown : Bool
  locals : List (List Nat)
  injector : List Nat
deriving Repr, DecidableEq

/-- What one worker-loop iteration did. -/
inductive WorkerAction
  | exit
  | ranLocal (task : Nat)
  | ranInjector (task : Nat)
  | ranStolen (task : Nat) (victim : Nat)
  | parked
deriving Repr, DecidableEq

/-- The `for i in 0..len` loop of `Worker::try_steal` (`worker.rs` lines
106-116), at offset `i` with `fuel` iterations left: the victim is
`(id + i + 1) % len` and the first victim with a non-empty queue is stolen
from (front pop). -/
def tryStealFrom (id : Nat) (locals : List (List Nat)) :
    Nat → Nat → Option (Nat × Nat × List (List Nat))
  | _, 0 => none
  | i, fuel + 1 =>
    match popFront (locals.getD ((id + i + 1) % locals.length) []) with
    | some (t, q2) =>
      some (t, (id + i + 1) % locals.length,
        locals.set ((id + i + 1) % locals.length) q2)
    | none => tryStealFrom id locals (i + 1) fuel

/-- `Worker::try_steal` (`worker.rs` lines 100-117): `None` when there is
at most one worker, otherwise visit `len` victims round-robin starting at
offset 0. -/
def trySteal (id : Nat) (locals : List (List Nat)) :
    Option (Nat × Nat × List (List Nat)) :=
  if locals.length ≤ 1 then none
  else tryStealFrom id locals 0 locals.length

/-- `Duration::from_millis(1)` used by `Injector::park`
(`injector.rs` line 79): the park wait is bounded. -/
def parkTimeoutMillis : Nat := 1

/-- One iteration of `Worker::run` (`worker.rs` lines 69-96): check the
shutdown flag and exit when set; else pop the back of the own local queue;
else pop the front of the global injector; else try to steal; else park. -/
def workerIter (id : Nat) (s : WorkerState) : WorkerAction × WorkerState :=
  if s.shutdown then (.exit, s)
  else
    match popBack (s.locals.getD id []) with
    | some (t, q2) => (.ranLocal t, { s with locals := s.locals.set id q2 })
    | none =>
      match popFront s.injector with
      | some (t, rest) => (.ranInjector t, { s with injector := rest })
      | none =>
        match trySteal id s.locals with
        | some (t, victim, locals2) =>
          (.ranStolen t victim, { s with locals := locals2 })
        | none => (.parked, s)

theorem popBack_eq_none_iff (l : List α) : popBack l = none ↔ l = [] := by
  unfold popBack
  rcases hl : l.getLast? with _ | x
  · simpa using List.getLast?_eq_none_iff.mp hl
  · constructor
    · intro h
      simp at h
    · intro h
      subst h
      simp at hl

theorem popFront_eq_none_iff (l : List α) : popFront l = none ↔ l = [] := by
  rcases l with _ | ⟨a, as⟩ <;> simp [popFront]

theorem tryStealFrom_spec (id : Nat) (locals : List (List Nat)) :
    ∀ (fuel i t victim locals2 : _),
      tryStealFrom id locals i fuel = some (t, victim, locals2) →
      ∃ k, k < fuel ∧ victim = (id + (i + k) + 1) % locals.length ∧
        (∀ j, j < k →
          locals.getD ((id + (i + j) + 1) % locals.length) [] = []) ∧
        ∃ q2, locals.getD victim [] = t :: q2 ∧
          locals2 = locals.set victim q2 := by
  intro fuel
  induction fuel with
  | zero => intro i t victim locals2 h; simp [tryStealFrom] at h
  | succ fuel ih =>
    intro i t victim locals2 h
    unfold tryStealFrom at h
    rcases hq : popFront (locals.getD ((id + i + 1) % locals.length) [])
      with _ | ⟨t0, q0⟩
    · rw [hq] at h
      rcases ih (i + 1) t victim locals2 h with
        ⟨k, hk, hv, hbefore, q2, hq2, hl2⟩
      refine ⟨k + 1, by omega, ?_, ?_, q2, hq2, hl2⟩
      · rw [hv]
        congr 2
        omega
      · intro j hj
        rcases j with _ | j
        · simpa using popFront_eq_none_iff _ |>.mp hq
        · have := hbefore j (by omega)
          rw [show id + (i + (j + 1)) + 1 = id + (i + 1 + j) + 1 by omega]
          exact this
    · rw [hq] at h
      have hcons : locals.getD ((id + i + 1) % locals.length) [] =
          t0 :: q0 := by
        rcases hl : locals.getD ((id + i + 1) % locals.length) []
          with _ | ⟨a, as⟩
        · rw [hl] at hq
          simp [popFront] at hq
        · rw [hl] at hq
          simp [popFront] at hq
          rw [hq.1, hq.2]
      simp only [Option.some.injEq, Prod.mk.injEq] at h
      obtain ⟨rfl, rfl, rfl⟩ := h
      refine ⟨0, by omega, by simp, fun j hj => absurd hj (by omega),
        q0, ?_, rfl⟩
      simpa using hcons

/-- ### C8
Each worker-loop iteration first checks the shutdown flag and exits when it
is set; otherwise it runs, in order of preference: a task popped from the
back of its own local queue, else a task popped from the front of the
shared injector, else a task stolen from the front of another worker's
local queue with victims visited round-robin starting at
`(id + 1) % len`; only when all of these yield nothing does it park on the
injector, whose wait is bounded by a timeout. -/
theorem worker_iteration_spec (id : Nat) (s : WorkerState) :
    (s.shutdown = true → workerIter id s = (.exit, s)) ∧
    (s.shutdown = false →
      ∀ t q2, popBack (s.locals.getD id []) = some (t, q2) →
      workerIter id s =
        (.ranLocal t, { s with locals := s.locals.set id q2 })) ∧
    (s.shutdown = false → s.locals.getD id [] = [] →
      ∀ t rest, s.injector = t :: rest →
      workerIter id s = (.ranInjector t, { s with injector := rest })) ∧
    (s.shutdown = false → s.locals.getD id [] = [] → s.injector = [] →
      ∀ t victim locals2, trySteal id s.locals = some (t, victim, locals2) →
      workerIter id s =
        (.ranStolen t victim, { s with locals := locals2 }) ∧
      victim ≠ id ∧
      (∃ k q2, k < s.locals.length ∧
        victim = (id + k + 1) % s.locals.length ∧
        (∀ j, j < k →
          s.locals.getD ((id + j + 1) % s.locals.length) [] = []) ∧
        s.locals.getD victim [] = t :: q2 ∧
        locals2 = s.locals.set victim q2)) ∧
    (s.shutdown = false → s.locals.getD id [] = [] → s.injector = [] →
      trySteal id s.locals = none →
      workerIter id s = (.parked, s) ∧ 0 < parkTimeoutMillis) := by
  refine ⟨fun hsd => ?_, fun hsd t q2 hpb => ?_, fun hsd hloc t rest hinj => ?_,
    fun hsd hloc hinj t victim locals2 hsteal => ?_,
    fun hsd hloc hinj hsteal => ?_⟩
  · simp [workerIter, hsd]
  · simp only [workerIter, hsd, Bool.false_eq_true, if_false, hpb]
  · have hpb : popBack (s.locals.getD id []) = none := by
      rw [hloc]
      rfl
    simp only [workerIter, hsd, Bool.false_eq_true, if_false, hpb, hinj,
      popFront]
  · have hpb : popBack (s.locals.getD id []) = none := by
      rw [hloc]
      rfl
    have hpf : popFront s.injector = none := by
      rw [hinj]
      rfl
    have hrun : workerIter id s =
        (.ranStolen t victim, { s with locals := locals2 }) := by
      simp only [workerIter, hsd, Bool.false_eq_true, if_false, hpb, hpf,
        hsteal]
    have hfrom : tryStealFrom id s.locals 0 s.locals.length =
        some (t, victim, locals2) := by
      unfold trySteal at hsteal
      by_cases hlen : s.locals.length ≤ 1
      · simp [hlen] at hsteal
      · simpa [hlen] using hsteal
    rcases tryStealFrom_spec id s.locals s.locals.length 0 t victim locals2
      hfrom with ⟨k, hk, hv, hbefore, q2, hcons, hl2⟩
    refine ⟨hrun, ?_, k, q2, hk, by simpa using hv, ?_, hcons, hl2⟩
    · intro he
      rw [he, hloc] at hcons
      exact absurd hcons (by simp)
    · intro j hj
      simpa using hbefore j hj
  · have hpb : popBack (s.locals.getD id []) = none := by
      rw [hloc]
      rfl
    have hpf : popFront s.injector = none := by
      rw [hinj]
      rfl
    constructor
    · simp only [workerIter, hsd, Bool.false_eq_true, if_false, hpb, hpf,
        hsteal]
    · simp [parkTimeoutMillis]

/-- Witness for C8: worker 0 with an empty own queue and empty injector
steals task 5 from the front of worker 1's queue. -/
theorem worker_iteration_spec_witness :
    workerIter 0 ⟨false, [[], [5]], []⟩ =
      (WorkerAction.ranStolen 5 1, ⟨false, [[], []], []⟩) ∧ (1 : Nat) ≠ 0 := by
  have h := (worker_iteration_spec 0 ⟨false, [[], [5]], []⟩).2.2.2.1 rfl rfl
    rfl 5 1 [[], []] (by decide)
  exact ⟨h.1, h.2.1⟩

/-! ### C10: the `Slab` allocator (`src/cadentis/src/utils/slab.rs`) -/

theorem getD_set_self (l : List α) (i : Nat) (x d : α) (h : i < l.length) :
    (l.set i x).getD i d = x := by
  simp [List.getD_eq_getElem?_getD, List.getElem?_set_self h]

theorem getD_set_ne (l : List α) (i j : Nat) (x d : α) (h : i ≠ j) :
    (l.set i x).getD j d = l.getD j d := by
  simp [List.getD_eq_getElem?_getD, List.getElem?_set_ne h]

theorem getD_append_left (l r : List α) (i : Nat) (d : α)
    (h : i < l.length) : (l ++ r).getD i d = l.getD i d := by
  simp [List.getD_eq_getElem?_getD, List.getElem?_append_left h]

theorem getD_append_right (l r : List α) (i : Nat) (d : α)
    (h : l.length ≤ i) : (l ++ r).getD i d = r.getD (i - l.length) d := by
  simp [List.getD_eq_getElem?_getD, List.getElem?_append_right h]

theorem getD_oob (l : List α) (i : Nat) (d : α) (h : l.length ≤ i) :
    l.getD i d = d := by
  simp [List.getD_eq_getElem?_getD, List.getElem?_eq_none_iff.mpr h]

theorem getD_replicate (n i : Nat) (x d : α) :
    (List.replicate n x).getD i d = if i < n then x else d := by
  by_cases h : i < n
  · simp [List.getD_eq_getElem?_getD, List.getElem?_replicate_of_lt h, h]
  · rw [getD_oob _ _ _ (by simpa using Nat.le_of_not_lt h)]
    simp [h]

/-- The slab of `slab.rs`: `items` stores the slots (`MaybeUninit<T>` is
embedded as `Option T`, uninitialized slots being `none`), `free` is the
stack of free indices, `used` marks initialized slots.  The Rust `Vec`
used as a stack pushes and pops at its end; the embedding keeps the top of
the stack at the head of the `free` list. -/
structure Slab (T : Type) where
  items : List (Option T)
  free : List Nat
  used : List Bool

/-- `Slab::new(size)` (`slab.rs` lines 45-51): `size` uninitialized slots,
all free (`(0..size).collect()` pushed in order leaves `size - 1` on top),
none used. -/
def Slab.new (T : Type) (size : Nat) : Slab T :=
  ⟨List.replicate size none, (List.range size).reverse,
    List.replicate size false⟩

/-- `Slab::insert` (`slab.rs` lines 68-87): pop a free index if available;
otherwise grow the slab exponentially (`new_len = if len == 0 { 1 } else
{ 2 * len }`), hand out slot `len` directly and push `(len + 1)..new_len`
onto the free stack.  The chosen slot is then written and marked used. -/
def Slab.insert (s : Slab T) (item : T) : Nat × Slab T :=
  match s.free with
  | i :: rest =>
    (i, ⟨s.items.set i (some item), rest, s.used.set i true⟩)
  | [] =>
    (s.items.length,
      ⟨(s.items ++
          List.replicate
            ((if s.items.length = 0 then 1 else 2 * s.items.length) -
              s.items.length) none).set s.items.length (some item),
        (List.range' (s.items.length + 1)
          ((if s.items.length = 0 then 1 else 2 * s.items.length) -
            (s.items.length + 1))).reverse,
        (s.used ++
          List.replicate
            ((if s.items.length = 0 then 1 else 2 * s.items.length) -
              s.items.length) false).set s.items.length true⟩)

/-- `Slab::remove(index)` (`slab.rs` lines 107-118): panic (`none`) unless
`index` is in bounds and used; otherwise push `index` onto the free stack,
clear its used mark, read the value out and uninitialize the slot.  The
inner `none` branch is unreachable under the invariant: a used slot is
always initialized (in Rust, reading it would otherwise be undefined
behaviour). -/
def Slab.remove (s : Slab T) (index : Nat) : Option (T × Slab T) :=
  if index < s.items.length ∧ s.used.getD index false = true then
    match s.items.getD index none with
    | some item =>
      some (item,
        ⟨s.items.set index none, index :: s.free, s.used.set index false⟩)
    | none => none
  else none

/-- Invariant of the slab: `used` and `items` have equal length, the free
stack holds no duplicates, it holds exactly the in-bounds indices that are
not used, and a slot is marked used exactly when it is initialized. -/
def Slab.Inv (s : Slab T) : Prop :=
  s.used.length = s.items.length ∧
  s.free.Nodup ∧
  (∀ i ∈ s.free, i < s.used.length ∧ s.used.getD i false = false) ∧
  (∀ i, i < s.used.length → s.used.getD i false = false → i ∈ s.free) ∧
  (∀ i, i < s.used.length →
    (s.used.getD i false = true ↔ (s.items.getD i none).isSome = true))

instance {T : Type} (s : Slab T) : Decidable s.Inv := by
  unfold Slab.Inv
  infer_instance

theorem Slab.insert_spec {T : Type} (s : Slab T) (h : s.Inv) (item : T) :
    s.used.getD (s.insert item).1 false = false ∧
    (s.insert item).2.Inv ∧
    (s.insert item).2.used.getD (s.insert item).1 false = true ∧
    (s.insert item).2.items.getD (s.insert item).1 none = some item ∧
    ∀ j, j ≠ (s.insert item).1 →
      (s.insert item).2.items.getD j none = s.items.getD j none ∧
      (s.insert item).2.used.getD j false = s.used.getD j false := by
  obtain ⟨items, free, used⟩ := s
  obtain ⟨hlen, hnd, hmem1, hmem2, hcorr⟩ := h
  simp only at hlen hnd hmem1 hmem2 hcorr
  rcases free with _ | ⟨i, rest⟩
  · -- growth path: no free slot, slot `len` is handed out
    have hall : ∀ j, j < used.length → used.getD j false = true := by
      intro j hj
      rcases hu : used.getD j false with _ | _
      · exact absurd (hmem2 j hj hu) (by simp)
      · rfl
    simp only [Slab.insert]
    set len := items.length with hlendef
    set newLen := if len = 0 then 1 else 2 * len with hnewdef
    have hlt : len < newLen := by
      rw [hnewdef]
      split <;> omega
    have hulen : used.length = len := hlen
    have hitems2len :
        ((items ++ List.replicate (newLen - len) (none : Option T)).set len
          (some item)).length = newLen := by
      simp [List.length_set, List.length_append, List.length_replicate]
      omega
    have husd2len :
        ((used ++ List.replicate (newLen - len) false).set len true).length =
          newLen := by
      simp [List.length_set, List.length_append, List.length_replicate, hulen]
      omega
    have hfmem : ∀ j, j ∈ (List.range' (len + 1) (newLen - (len + 1))).reverse
        ↔ (len + 1 ≤ j ∧ j < newLen) := by
      intro j
      rw [List.mem_reverse, List.mem_range'_1]
      omega
    have hused2 : ∀ j, j ≠ len →
        ((used ++ List.replicate (newLen - len) false).set len true).getD j
          false = used.getD j false := by
      intro j hj
      rw [getD_set_ne _ _ _ _ _ (fun he => hj he.symm)]
      by_cases hjl : j < len
      · exact getD_append_left _ _ _ _ (by omega)
      · rw [getD_append_right _ _ _ _ (by omega), getD_replicate,
          getD_oob _ _ _ (by omega)]
        split <;> rfl
    have hitems2 : ∀ j, j ≠ len →
        ((items ++ List.replicate (newLen - len) (none : Option T)).set len
          (some item)).getD j none = items.getD j none := by
      intro j hj
      rw [getD_set_ne _ _ _ _ _ (fun he => hj he.symm)]
      by_cases hjl : j < len
      · exact getD_append_left _ _ _ _ (by omega)
      · rw [getD_append_right _ _ _ _ (by omega), getD_replicate,
          getD_oob _ _ _ (by omega)]
        split <;> rfl
    refine ⟨getD_oob _ _ _ (by omega), ⟨?_, ?_, ?_, ?_, ?_⟩, ?_, ?_, ?_⟩
    · rw [hitems2len, husd2len]
    · exact List.nodup_reverse.mpr (List.nodup_range' _ _)
    · intro j hj
      rw [hfmem] at hj
      rw [husd2len]
      refine ⟨by omega, ?_⟩
      rw [hused2 j (by omega)]
      exact getD_oob _ _ _ (by omega)
    · intro j hj hu2
      rw [husd2len] at hj
      rw [hfmem]
      rcases Nat.lt_or_ge j len with hjl | hjg
      · rw [hused2 j (by omega)] at hu2
        rw [hall j (by omega)] at hu2
        exact absurd hu2 (by simp)
      · rcases Nat.eq_or_lt_of_le hjg with rfl | hjg2
        · rw [getD_set_self _ _ _ _ (by
            simp [List.length_append, List.length_replicate, hulen]
            omega)] at hu2
          exact absurd hu2 (by simp)
        · omega
    · intro j hj
      rw [husd2len] at hj
      rcases Nat.lt_or_ge j len with hjl | hjg
      · rw [hused2 j (by omega), hitems2 j (by omega)]
        exact hcorr j (by omega)
      · rcases Nat.eq_or_lt_of_le hjg with rfl | hjg2
        · rw [getD_set_self _ _ _ _ (by
            simp [List.length_append, List.length_replicate, hulen]
            omega),
            getD_set_self _ _ _ _ (by
            simp [List.length_append, List.length_replicate]
            omega)]
          simp
        · rw [hused2 j (by omega), hitems2 j (by omega),
            getD_oob _ _ _ (by omega), getD_oob _ _ _ (by omega)]
          simp
    · exact getD_set_self _ _ _ _ (by
        simp [List.length_append, List.length_replicate, hulen]
        omega)
    · exact getD_set_self _ _ _ _ (by
        simp [List.length_append, List.length_replicate]
        omega)
    · intro j hj
      exact ⟨hitems2 j hj, hused2 j hj⟩
  · -- fast path: pop index `i` off the free stack
    have hi := hmem1 i (by simp)
    obtain ⟨hiu, hif⟩ := hi
    have hii : i < items.length := by omega
    have hnotmem : i ∉ rest := (List.nodup_cons.mp hnd).1
    simp only [Slab.insert]
    refine ⟨hif, ⟨?_, (List.nodup_cons.mp hnd).2, ?_, ?_, ?_⟩, ?_, ?_, ?_⟩
    · simp [List.length_set, hlen]
    · intro j hj
      have hjne : j ≠ i := fun he => hnotmem (he ▸ hj)
      have := hmem1 j (by simp [hj])
      rw [List.length_set, getD_set_ne _ _ _ _ _ (fun he => hjne he.symm)]
      exact this
    · intro j hj hu2
      rw [List.length_set] at hj
      by_cases hji : j = i
      · subst hji
        rw [getD_set_self _ _ _ _ hiu] at hu2
        exact absurd hu2 (by simp)
      · rw [getD_set_ne _ _ _ _ _ (fun he => hji he.symm)] at hu2
        have := hmem2 j hj hu2
        simpa [hji] using this
    · intro j hj
      rw [List.length_set] at hj
      by_cases hji : j = i
      · subst hji
        rw [getD_set_self _ _ _ _ hiu, getD_set_self _ _ _ _ hii]
        simp
      · rw [getD_set_ne _ _ _ _ _ (fun he => hji he.symm),
          getD_set_ne _ _ _ _ _ (fun he => hji he.symm)]
        exact hcorr j hj
    · exact getD_set_self _ _ _ _ hiu
    · exact getD_set_self _ _ _ _ hii
    · intro j hj
      exact ⟨getD_set_ne _ _ _ _ _ (fun he => hj he.symm),
        getD_set_ne _ _ _ _ _ (fun he => hj he.symm)⟩

theorem Slab.remove_spec {T : Type} (s : Slab T) (h : s.Inv) (i : Nat)
    (hi : i < s.items.length) (hu : s.used.getD i false = true) :
    ∃ item s2, s.remove i = some (item, s2) ∧
      s.items.getD i none = some item ∧
      s2.Inv ∧
      s2.used.getD i false = false ∧
      i ∈ s2.free ∧
      (∀ j, j ≠ i →
        s2.items.getD j none = s.items.getD j none ∧
        s2.used.getD j false = s.used.getD j false) ∧
      ∀ x, (s2.insert x).1 = i := by
  obtain ⟨items, free, used⟩ := s
  obtain ⟨hlen, hnd, hmem1, hmem2, hcorr⟩ := h
  simp only at hlen hnd hmem1 hmem2 hcorr hi hu
  have hiu : i < used.length := by omega
  have hsome : (items.getD i none).isSome = true := (hcorr i hiu).mp hu
  rcases hitem : items.getD i none with _ | item
  · rw [hitem] at hsome
    simp at hsome
  · have hnotmem : i ∉ free := by
      intro hmem
      have := (hmem1 i hmem).2
      rw [hu] at this
      exact absurd this (by simp)
    refine ⟨item, ⟨items.set i none, i :: free, used.set i false⟩, ?_, rfl,
      ⟨?_, List.nodup_cons.mpr ⟨hnotmem, hnd⟩, ?_, ?_, ?_⟩,
      getD_set_self _ _ _ _ hiu, by simp, ?_, fun x => rfl⟩
    · unfold Slab.remove
      simp only
      rw [if_pos ⟨hi, hu⟩, hitem]
    · simp [List.length_set, hlen]
    · intro j hj
      rw [List.length_set]
      rcases List.mem_cons.mp hj with rfl | hj2
      · exact ⟨hiu, getD_set_self _ _ _ _ hiu⟩
      · have hjne : j ≠ i := by
          intro he
          exact hnotmem (he ▸ hj2)
        have := hmem1 j hj2
        rw [getD_set_ne _ _ _ _ _ (fun he => hjne he.symm)]
        exact this
    · intro j hj hu2
      rw [List.length_set] at hj
      by_cases hji : j = i
      · simp [hji]
      · rw [getD_set_ne _ _ _ _ _ (fun he => hji he.symm)] at hu2
        exact List.mem_cons.mpr (Or.inr (hmem2 j hj hu2))
    · intro j hj
      rw [List.length_set] at hj
      by_cases hji : j = i
      · subst hji
        rw [getD_set_self _ _ _ _ hiu, getD_set_self _ _ _ _ hi]
        simp
      · rw [getD_set_ne _ _ _ _ _ (fun he => hji he.symm),
          getD_set_ne _ _ _ _ _ (fun he => hji he.symm)]
        exact hcorr j hj
    · intro j hj
      exact ⟨getD_set_ne _ _ _ _ _ (fun he => hj he.symm),
        getD_set_ne _ _ _ _ _ (fun he => hj he.symm)⟩

/-- ### C10
For every slab satisfying the invariant (which `Slab::new` establishes and
both operations preserve): `insert` returns an index whose slot is free at
the moment of the call — so no two live entries ever share an index — and
makes that slot the only one it touches, setting it to the inserted value;
`remove(i)` on a used index succeeds, returns exactly the value stored at
`i` (the most recently inserted value there, since inserts are the only
writes and only ever target free slots), marks `i` free, touches no other
slot, and the next `insert` returns `i` again. -/
theorem slab_insert_remove_spec (T : Type) (s : Slab T) (hInv : s.Inv) :
    (∀ item : T,
      s.used.getD (s.insert item).1 false = false ∧
      (s.insert item).2.Inv ∧
      (s.insert item).2.used.getD (s.insert item).1 false = true ∧
      (s.insert item).2.items.getD (s.insert item).1 none = some item ∧
      ∀ j, j ≠ (s.insert item).1 →
        (s.insert item).2.items.getD j none = s.items.getD j none ∧
        (s.insert item).2.used.getD j false = s.used.getD j false) ∧
    (∀ i, i < s.items.length → s.used.getD i false = true →
      ∃ item s2, s.remove i = some (item, s2) ∧
        s.items.getD i none = some item ∧
        s2.Inv ∧
        s2.used.getD i false = false ∧
        i ∈ s2.free ∧
        (∀ j, j ≠ i →
          s2.items.getD j none = s.items.getD j none ∧
          s2.used.getD j false = s.used.getD j false) ∧
        ∀ x, (s2.insert x).1 = i) :=
  ⟨fun item => Slab.insert_spec s hInv item,
    fun i hi hu => Slab.remove_spec s hInv i hi hu⟩

/-- Witness for C10 on a freshly created one-slot slab: inserting 42 fills
slot 0, which was free at the call. -/
theorem slab_insert_remove_spec_witness :
    (Slab.new Nat 1).used.getD ((Slab.new Nat 1).insert 42).1 false = false ∧
    ((Slab.new Nat 1).insert 42).2.used.getD
      ((Slab.new Nat 1).insert 42).1 false = true ∧
    ((Slab.new Nat 1).insert 42).2.items.getD
      ((Slab.new Nat 1).insert 42).1 none = some 42 := by
  have h := (slab_insert_remove_spec Nat (Slab.new Nat 1) (by decide)).1 42
  exact ⟨h.1, h.2.2.1, h.2.2.2.1⟩

end Cadentis
